import Mathlib

/-!
Verification model of the ykl compiler front-end (lexer in `src/lexer.ts`,
parser in `src/expression.ts`, token stream in `stream.ts`, evaluator in
`src/ast_to_fn.ts`).  The TypeScript sources are shallowly embedded:
strings are `List Char` indexed the way JavaScript indexes strings
(`src[i]` that is out of range is `undefined`, modelled as `none`);
loops that may fail to terminate take a fuel parameter, and exhausting
fuel (or hitting a loop that provably never exits, such as the lexer's
`quotedLiteral` scan running past the end of input) is reported as
`diverge`; thrown exceptions are reported as error values carrying the
thrown message text.
-/

namespace Ykl

/-- JavaScript character access `src[i]`: `undefined` out of range. -/
def charAt (src : List Char) (i : Nat) : Option Char := src.get? i

/-- `isWhitespace` from lexer.ts: space or tab (false for `undefined`). -/
def isWsChar (c : Char) : Bool := c = ' ' || c = '\t'

/-- `isWhitespace` applied to a possibly-undefined character. -/
def isWs (c : Option Char) : Bool :=
  match c with
  | some c => isWsChar c
  | none => false

theorem charAt_some_lt {src : List Char} {i : Nat} {c : Char}
    (h : charAt src i = some c) : i < src.length := by
  by_contra hh
  rw [charAt, List.get?_eq_none.mpr (by omega)] at h
  exact Option.noConfusion h

theorem isWs_some {src : List Char} {i : Nat}
    (h : isWs (charAt src i) = true) : i < src.length := by
  unfold isWs at h
  rcases hc : charAt src i with _ | c
  · rw [hc] at h; exact absurd h (by simp)
  · exact charAt_some_lt hc

/-- Bounded form of `consumeWhitespace`: the loop advances only while
whitespace is in range, so `src.length + 1 - i` steps always suffice. -/
def consumeWsB (src : List Char) : Nat → Nat → Nat
  | 0, i => i
  | b + 1, i => if isWs (charAt src i) then consumeWsB src b (i + 1) else i

/-- `consumeWhitespace` from lexer.ts. -/
def consumeWhitespace (src : List Char) (i : Nat) : Nat :=
  consumeWsB src (src.length + 1 - i) i

/-- Bounded form of the leading-newline skip at the top of `getTokens`
(`while (i < source.length && source[i] === '\n')`). -/
def skipNlB (src : List Char) : Nat → Nat → Nat
  | 0, i => i
  | b + 1, i => if charAt src i = some '\n' then skipNlB src b (i + 1) else i

/-- The leading-newline skip at the top of `getTokens`. -/
def skipNewlines (src : List Char) (i : Nat) : Nat :=
  skipNlB src (src.length + 1 - i) i

/-- Tokens of the second (authoritative) lexer in lexer.ts.  Every token
carries its `start`/`end` byte offsets; `end` is called `endPos` here
because `end` is reserved in Lean.  The numeric literal keeps the source
text of the number (the TypeScript stores `Number(str)`; none of the
verified properties inspect the floating-point value). -/
inductive Token where
  | assignment (literal : Bool) (startPos endPos : Nat)
  | newline (indent : Nat) (startPos endPos : Nat)
  | hyphen (indent column : Nat) (startPos endPos : Nat)
  | string (str : String) (startPos endPos : Nat)
  | number (raw : String) (startPos endPos : Nat)
  | bool (b : Bool) (startPos endPos : Nat)
  | symbol (str : String) (startPos endPos : Nat)
  | unknown (str : String) (startPos endPos : Nat)
  | indent (startPos endPos : Nat)
  | outdent (startPos endPos : Nat)
  | accessor (startPos endPos : Nat)
  | eof (startPos endPos : Nat)
  | lift (startPos endPos : Nat)
  | pipeline (startPos endPos : Nat)
  | hardMerge (startPos endPos : Nat)
  | softMerge (startPos endPos : Nat)
  | patternMatch (startPos endPos : Nat)
  | comment (startPos endPos : Nat)
  | sectionStart (startPos endPos : Nat)
  | openParen (startPos endPos : Nat)
  | closeParen (startPos endPos : Nat)
  | emptyObject (startPos endPos : Nat)
  | emptyList (startPos endPos : Nat)
  | fn (startPos endPos : Nat)
deriving DecidableEq, Repr

/-- The `end` offset of a token. -/
def Token.endPos : Token → Nat
  | .assignment _ _ e => e
  | .newline _ _ e => e
  | .hyphen _ _ _ e => e
  | .string _ _ e => e
  | .number _ _ e => e
  | .bool _ _ e => e
  | .symbol _ _ e => e
  | .unknown _ _ e => e
  | .indent _ e => e
  | .outdent _ e => e
  | .accessor _ e => e
  | .eof _ e => e
  | .lift _ e => e
  | .pipeline _ e => e
  | .hardMerge _ e => e
  | .softMerge _ e => e
  | .patternMatch _ e => e
  | .comment _ e => e
  | .sectionStart _ e => e
  | .openParen _ e => e
  | .closeParen _ e => e
  | .emptyObject _ e => e
  | .emptyList _ e => e
  | .fn _ e => e

/-- Result of one lexing rule (a generator in the source): `none` means
the rule's internal loop never terminates; `some none` means the rule
yields no token; `some (some t)` means it yields `t`. -/
abbrev RuleResult := Option (Option Token)

/-- JavaScript `String.prototype.slice(a, b)` on our character lists. -/
def sliceStr (src : List Char) (a b : Nat) : String :=
  String.mk ((src.drop a).take (b - a))

/-- The `newline` rule of lexer.ts. -/
def newlineRule (src : List Char) (i : Nat) : RuleResult :=
  if charAt src i = some '\n' then
    let k := consumeWhitespace src (i + 1)
    some (some (.newline (k - (i + 1)) i k))
  else some none

/-- Bounded form of the scan to end-of-line in the `comment` rule
(`while (src[i] !== '\n' && i < src.length)`). -/
def commentScanB (src : List Char) : Nat → Nat → Nat
  | 0, i => i
  | b + 1, i =>
    if i < src.length then
      if charAt src i = some '\n' then i else commentScanB src b (i + 1)
    else i

/-- The scan to end-of-line in the `comment` rule. -/
def commentScan (src : List Char) (i : Nat) : Nat :=
  commentScanB src (src.length + 1 - i) i

/-- The `comment` rule of lexer.ts. -/
def commentRule (src : List Char) (i : Nat) : RuleResult :=
  if charAt src i = some '#' then some (some (.comment i (commentScan src (i + 1))))
  else some none

/-- The `atom(match, fn)` rule factory of lexer.ts (fixed-text tokens). -/
def atomRule (m : List Char) (mk : Nat → Nat → Token) (src : List Char) (i : Nat) :
    RuleResult :=
  if m.isPrefixOf (src.drop i) then some (some (mk i (i + m.length)))
  else some none

/-- The backwards whitespace scan in the `hyphen` rule
(`while (isWhitespace(src[--i])) {}`); `none` is index `-1`. -/
def backWs (src : List Char) : Nat → Option Nat
  | 0 => none
  | j + 1 => if isWs (charAt src j) then backWs src j else some j

/-- Bounded form of the forwards whitespace scan in the `hyphen` rule
(`while (isWhitespace(src[++i])) { }`). -/
def hyphenFwdB (src : List Char) : Nat → Nat → Nat
  | 0, k => k + 1
  | b + 1, k => if isWs (charAt src (k + 1)) then hyphenFwdB src b (k + 1) else k + 1

/-- The forwards whitespace scan in the `hyphen` rule. -/
def hyphenFwd (src : List Char) (k : Nat) : Nat :=
  hyphenFwdB src (src.length + 1 - k) k

/-- The `hyphen` rule of lexer.ts. -/
def hyphenRule (src : List Char) (i : Nat) : RuleResult :=
  if charAt src i = some '-' then
    match backWs src i with
    | none => some none
    | some j =>
      if charAt src j = some '\n' then
        let column := i - j - 1
        let k := hyphenFwd src i
        some (some (.hyphen (column + (k - i)) column i k))
      else some none
  else some none

/-- The `assignments` rule of lexer.ts (`:`, `:=`, `:` before newline). -/
def assignmentsRule (src : List Char) (i : Nat) : RuleResult :=
  if charAt src i = some ':' then
    match charAt src (i + 1) with
    | some c =>
      if isWsChar c then some (some (.assignment true i (i + 1)))
      else if c = '=' then some (some (.assignment false i (i + 2)))
      else if c = '\n' ∨ c = '\r' then some (some (.assignment false i (i + 1)))
      else some none
    | none => some none
  else some none

/-- The closing-quote scan of `quotedLiteral`
(`while (!QUOTES.has(src[i])) i++`): the source has no bounds check, so
if no quote follows, the JavaScript loop runs forever — reported as
`none`. -/
def findQuoteB (src : List Char) : Nat → Nat → Option Nat
  | 0, _ => none
  | b + 1, i =>
    if charAt src i = some '"' ∨ charAt src i = some '\'' then some i
    else if i < src.length then findQuoteB src b (i + 1)
    else none

/-- The quote search, with the bound that suffices for the in-range part
of the scan (past the end the JavaScript loop cannot stop). -/
def findQuote (src : List Char) (i : Nat) : Option Nat :=
  findQuoteB src (src.length + 1 - i) i

/-- Bounded form of the character scan of `unquotedLiteral`; returns the
final index and `lastNonWhitespace`. -/
def unquotedScanB (src : List Char) : Nat → Nat → Nat → Nat × Nat
  | 0, j, lastNW => (j, lastNW)
  | b + 1, j, lastNW =>
    match charAt src j with
    | none => (j, lastNW)
    | some c =>
      if c = '\n' ∨ c = '\r' ∨ c = '#' then (j, lastNW)
      else unquotedScanB src b (j + 1) (if isWsChar c then lastNW else j + 1)

/-- The character scan of `unquotedLiteral`. -/
def unquotedScan (src : List Char) (j lastNW : Nat) : Nat × Nat :=
  unquotedScanB src (src.length + 1 - j) j lastNW

/-- The regular expression `/^-?\d+(\.\d+)?$/` used by `unquotedLiteral`. -/
def isNumericLit (cs : List Char) : Bool :=
  let cs := if cs.head? = some '-' then cs.tail else cs
  let ds := cs.takeWhile Char.isDigit
  let rest := cs.drop ds.length
  !ds.isEmpty &&
    (rest.isEmpty ||
      (rest.head? = some '.' && !rest.tail.isEmpty && rest.tail.all Char.isDigit))

/-- Lower-casing for the case-insensitive bool regexes. -/
def lowerStr (s : String) : String := String.mk (s.data.map Char.toLower)

/-- Classification of an unquoted literal (number / bool / string). -/
def classifyLiteral (s : String) (a b : Nat) : Token :=
  if isNumericLit s.data then .number s a b
  else if lowerStr s = "true" then .bool true a b
  else if lowerStr s = "false" then .bool false a b
  else .string s a b

/-- The `literalAssignment` rule of lexer.ts.  It fires only when the
previously pushed token is a literal `Assignment`; the token list is
kept most-recent-first, so that token is the head. -/
def literalAssignmentRule (src : List Char) (i : Nat) (tkns : List Token) :
    RuleResult :=
  match tkns.head? with
  | some (.assignment true _ _) =>
    if charAt src i = some '"' ∨ charAt src i = some '\'' then
      match findQuote src (i + 1) with
      | none => none
      | some j => some (some (.string (sliceStr src (i + 1) j) (i + 1) (j + 1)))
    else
      let (_, lastNW) := unquotedScan src i i
      if lastNW = i then some none
      else some (some (classifyLiteral (sliceStr src i lastNW) i lastNW))
  | _ => some none

/-- `isNonWordChar` of the `symbol` rule. -/
def nonWordChar (c : Char) : Bool :=
  isWsChar c || c = ':' || c = '\n' || c = '\r' || c = '(' || c = ')' ||
  c = '#' || c = '{' || c = '}' || c = '[' || c = ']' ||
  c = '-' || c = '>' || c = '^' || c = '|' || c = '+' || c = '?' || c = '='

/-- Bounded form of the word scan of the `symbol` rule. -/
def symbolScanB (src : List Char) : Nat → Nat → Nat
  | 0, j => j
  | b + 1, j =>
    match charAt src j with
    | none => j
    | some c => if nonWordChar c then j else symbolScanB src b (j + 1)

/-- The word scan of the `symbol` rule. -/
def symbolScan (src : List Char) (j : Nat) : Nat :=
  symbolScanB src (src.length + 1 - j) j

/-- The `symbol` rule of lexer.ts. -/
def symbolRule (src : List Char) (i : Nat) : RuleResult :=
  let j := symbolScan src i
  if j = i then some none else some (some (.symbol (sliceStr src i j) i j))

/-- The stable sort by descending `end` in `pipeline` picks the first
candidate with the maximal end offset. -/
def pickBest : List Token → Option Token
  | [] => none
  | t :: ts => some (ts.foldl (fun best t' => if best.endPos < t'.endPos then t' else best) t)

/-- `getToken` of lexer.ts: skip whitespace, run every rule (the source
spreads every generator eagerly, so if any rule diverges the whole call
diverges), then keep the first token with the largest `end`. -/
def getToken (src : List Char) (i : Nat) (tkns : List Token) : RuleResult :=
  let ni := consumeWhitespace src i
  let rs : List RuleResult := [
    newlineRule src ni,
    commentRule src ni,
    atomRule "---".data Token.sectionStart src ni,
    hyphenRule src ni,
    atomRule "(".data Token.openParen src ni,
    atomRule ")".data Token.closeParen src ni,
    atomRule "{}".data Token.emptyObject src ni,
    atomRule "[]".data Token.emptyList src ni,
    atomRule "->".data Token.fn src ni,
    atomRule "^".data Token.lift src ni,
    atomRule "|".data Token.pipeline src ni,
    atomRule "+".data Token.hardMerge src ni,
    atomRule "+?".data Token.softMerge src ni,
    atomRule "?".data Token.patternMatch src ni,
    assignmentsRule src ni,
    atomRule ":".data Token.accessor src ni,
    literalAssignmentRule src ni tkns,
    symbolRule src ni]
  if rs.any (·.isNone) then none
  else some (pickBest (rs.filterMap (fun r => r.getD none)))

/-- The error-accumulation loop of `getTokens`
(`while (newTokens.length === 0 && i < source.length) { currentErr += source[++i]; ... }`).
Note `source[++i]` when `++i` lands one past the end appends the string
`"undefined"` (JavaScript coerces `undefined`).  Returns the final index
and accumulated error text, or `none` if a rule diverges. -/
def errAccB (src : List Char) (tkns : List Token) : Nat → Nat → List Char →
    Option (Nat × List Char)
  | 0, i, acc => some (i, acc)
  | b + 1, i, acc =>
    if i < src.length then
      let acc' := acc ++ (match charAt src (i + 1) with
        | some c => [c]
        | none => "undefined".data)
      match getToken src (i + 1) tkns with
      | none => none
      | some none => errAccB src tkns b (i + 1) acc'
      | some (some _) => some (i + 1, acc')
    else some (i, acc)

/-- The error-accumulation loop, with its sufficient bound (the index
strictly increases and the loop exits at the end of input). -/
def errAcc (src : List Char) (tkns : List Token) (i : Nat) (acc : List Char) :
    Option (Nat × List Char) :=
  errAccB src tkns (src.length + 1 - i) i acc

/-- Result of running the lexer: a token list, a thrown error, or a
non-terminating scan. -/
inductive LexResult where
  | tokens (ts : List Token) : LexResult
  | fatal (msg : String) : LexResult
  | diverge : LexResult
deriving DecidableEq, Repr

/-- The indent-stack pop loop of the `Newline` case
(`while (token.indent < indents[indents.length - 1])`), emitting one
`Outdent` per pop.  Indent levels are stored doubled (as `Int`) so the
hyphen rule's half levels (`column - 0.5`) stay exact. -/
def popIndents (ind : List Int) (toks : List Token) (v : Int) (os oe : Nat) :
    List Int × List Token :=
  match ind with
  | [] => ([], toks)
  | top :: rest =>
    if v < top then popIndents rest (.outdent os oe :: toks) v os oe
    else (top :: rest, toks)

/-- The redundant-newline test of the `Newline` case. -/
def newlineDedup (nind : Nat) (toks : List Token) : Bool :=
  match toks.head? with
  | some (.newline n2 _ _) => n2 = nind
  | some (.indent _ _) => true
  | some (.outdent _ _) => true
  | _ => false

/-- The equal-indent / deeper-indent emission of the `Newline` case. -/
def newlineEmit (t : Token) (nind : Nat) (s e : Nat)
    (toks : List Token) (ind : List Int) : List Token × List Int :=
  match ind with
  | [] => (toks, ind)
  | top :: _ =>
    if 2 * (nind : Int) = top then (t :: toks, ind)
    else if top < 2 * (nind : Int) then (.indent s e :: toks, 2 * (nind : Int) :: ind)
    else (toks, ind)

/-- The half-level insertion of the `Hyphen` case: when the previous
token is a `Newline`, replace it with an `Indent` and push the half
level `column - 0.5` (doubled: `2*column - 1`). -/
def hyphenAdjust (c : Int) (toks : List Token) (ind : List Int) (s e : Nat) :
    List Int × List Token :=
  match toks with
  | .newline _ _ _ :: rest => ((c - 1) :: ind, Token.indent s e :: rest)
  | _ => (ind, toks)

/-- The per-token `switch` of the main lexer loop: comments are dropped,
hyphens and newlines manipulate the indent stack, everything else is
pushed.  A hyphen whose column matches neither the current indent level
nor the current level plus one half throws. -/
def processTok (t : Token) (toks : List Token) (ind : List Int) :
    Except String (List Token × List Int) :=
  match t with
  | .comment _ _ => .ok (toks, ind)
  | .hyphen hind col s e =>
    match ind with
    | [] => .error "Hyhpen not supported outside of lists yet"
    | top :: _ =>
      if 2 * (col : Int) = top ∨ 2 * (col : Int) = top + 1 then
        let p := hyphenAdjust (2 * (col : Int)) toks ind s e
        .ok (Token.indent s e :: p.2, (2 * (hind : Int)) :: p.1)
      else .error "Hyhpen not supported outside of lists yet"
  | .newline nind s e =>
    let p := popIndents ind toks (2 * (nind : Int)) (s + 1) e
    if newlineDedup nind p.2 then .ok (p.2, p.1)
    else
      let q := newlineEmit t nind s e p.2 p.1
      .ok (q.1, q.2)
  | t => .ok (t :: toks, ind)

/-- The final indent flush and `EOF` of `getTokens`
(`while (indents.length > 1) { indents.pop(); tokens.push(Outdent(...)) }`). -/
def finishTokens (toks : List Token) (ind : List Int) (len : Nat) : List Token :=
  (Token.eof len len :: (List.replicate (ind.length - 1) (Token.outdent len len) ++ toks)).reverse

/-- The main `while (i < source.length)` loop of `getTokens`.  The token
list is kept most-recent-first and reversed at the end.  When the lexer
fails to advance the source only logs (`console.error`) and loops, so no
progress with unchanged state consumes fuel forever. -/
def lexLoop (src : List Char) : Nat → Nat → List Token → List Int → LexResult
  | 0, _, _, _ => .diverge
  | fuel + 1, i, toks, ind =>
    if i < src.length then
      match getToken src i toks with
      | none => .diverge
      | some none =>
        match errAcc src toks i [] with
        | none => .diverge
        | some (i', acc) =>
          lexLoop src fuel i' (.unknown (String.mk acc) i i' :: toks) ind
      | some (some t) =>
        match processTok t toks ind with
        | .error msg => .fatal msg
        | .ok (toks', ind') =>
          let adv := consumeWhitespace src t.endPos
          if i < adv then lexLoop src fuel adv toks' ind'
          else lexLoop src fuel i toks' ind'
    else
      .tokens (finishTokens toks ind src.length)

/-- The CRLF normalisation `fileContent.replace(/\r\n/g, '\n')`
(left-to-right, non-overlapping). -/
def normalizeCrlf : List Char → List Char
  | [] => []
  | '\r' :: '\n' :: rest => '\n' :: normalizeCrlf rest
  | c :: rest => c :: normalizeCrlf rest

/-- `getTokens` of lexer.ts (the second, authoritative version).  CRLF is
normalised to LF; empty input returns a single `EOF`.  The source's
`source.concat('\n')` discards its result (JavaScript strings are
immutable), so no trailing newline is actually appended — the model
mirrors that. -/
def getTokens (fuel : Nat) (input : String) : LexResult :=
  let src := normalizeCrlf input.data
  if src.isEmpty then .tokens [.eof input.length input.length]
  else lexLoop src fuel (skipNewlines src 0) [] [0]

/-! ## Expressions (expression.ts) -/

/-- The `Cardinality` constants of type_system.ts. -/
inductive Card where
  | unit
  | scalar
  | vector
  | unknown
deriving DecidableEq, Repr

/-- Merge modes (`"Hard" | "Soft"`). -/
inductive MergeMode where
  | hard
  | soft
deriving DecidableEq, Repr

/-- The `dataType` argument carried by `Scalar` expressions (the parser
passes `UnitType`, `StringType(pattern)` or `NumberType(min, max)`; the
evaluator never reads it). -/
inductive Ty where
  | unitT
  | stringT (pattern : Option String)
  | numberT (lo hi : Option String)
  | booleanT
  | structT
  | anyT
deriving DecidableEq, Repr

/-- Evaluated values (the plain JavaScript data produced by ast_to_fn.ts):
objects, arrays, strings, numbers, booleans, the `Unit` symbol, and the
JavaScript `undefined` / `NaN` that some code paths produce.  Numbers
keep the source text that produced them; no verified property inspects
floating-point arithmetic. -/
inductive Value where
  | obj (fields : List (String × Value))
  | arr (elems : List Value)
  | str (s : String)
  | num (raw : String)
  | bool (b : Bool)
  | unitV
  | undefV
  | nanV
deriving Repr

/-- The `Expression` union of expression.ts.  `ScopedExpression.parent`
is the enclosing scope recorded at construction time (its symbol table
is an immutable map, so a snapshot is faithful); operands that the
source leaves `undefined` until later assignment are `Option`s. -/
inductive Expr where
  | unit
  | scalar (value : Value) (dataType : Ty)
  | vector (inner : List Expr)
  | assignment (key : String) (operand : Option Expr)
  | application (identifier : String) (operand : Option Expr)
  | funcDef (identifier : String) (body : Option Expr)
  | lift (operand : Expr)
  | merge (lhs rhs : Expr) (mode : MergeMode)
  | yieldE (operand : Expr)
  | block (sections : List (List Expr))
  | scope (table : List (String × Expr)) (parent : Option Expr) (operand : Option Expr)
  | pipelineE
deriving Repr

/-- `e.type === "Assignment"`. -/
def isAsg : Expr → Bool
  | .assignment _ _ => true
  | _ => false

/-- `e.type === "Yield"`. -/
def isYieldE : Expr → Bool
  | .yieldE _ => true
  | _ => false

/-- `BlockExpression.isStruct`: exactly one section, every expression in
it an `Assignment`. -/
def blockIsStruct : List (List Expr) → Bool
  | [s] => s.all isAsg
  | _ => false

/-- `BlockExpression.cardinality`. -/
def blockCard (ss : List (List Expr)) : Card :=
  if ss.length = 0 then .unit
  else if 1 < ss.length then .vector
  else if blockIsStruct ss then .scalar
  else .vector

/-- The cardinality function a `Merge` node stores: the source copies
`lhs.cardinality` (the bare function value) into the new node, so when
that node's cardinality is later invoked, closure-based expressions
still answer, while class methods (`Block`, `Scope`) and the
`Assignment` getter lose their `this` and crash (`none`). -/
def cardAsStored : Expr → Option Card
  | .merge l _ _ => cardAsStored l
  | .unit => some .unit
  | .scalar _ _ => some .scalar
  | .vector _ => some .vector
  | .application _ _ => some .unknown
  | .funcDef _ _ => some .unknown
  | .lift _ => some .vector
  | .yieldE _ => some .scalar
  | _ => none

/-- `expr.cardinality()`: `none` models a JavaScript crash — calling the
`Assignment` getter's result, the never-assigned `Pipeline` field, or a
`Scope` whose operand is still `undefined`. -/
def card : Expr → Option Card
  | .unit => some .unit
  | .scalar _ _ => some .scalar
  | .vector _ => some .vector
  | .application _ _ => some .unknown
  | .funcDef _ _ => some .unknown
  | .lift _ => some .vector
  | .yieldE _ => some .scalar
  | .block ss => some (blockCard ss)
  | .scope _ _ (some op) => card op
  | .scope _ _ none => none
  | .assignment _ _ => none
  | .pipelineE => none
  | .merge l _ _ => cardAsStored l

/-- The `Merge` smart constructor of expression.ts: a Unit operand makes
it return the other side unchanged; merging a Vector into a Scalar
throws; otherwise a `Merge` node is built.  Both cardinalities are
computed before any test, so an operand whose cardinality call crashes
makes the whole construction crash (`TypeError`). -/
def mergeExpr (lhs rhs : Expr) (mode : MergeMode) : Except String Expr :=
  match card lhs with
  | none => .error "TypeError"
  | some lhsCard =>
    match card rhs with
    | none => .error "TypeError"
    | some rhsCard =>
      if rhsCard = .unit then .ok lhs
      else if lhsCard = .unit then .ok rhs
      else if lhsCard = .scalar ∧ rhsCard = .vector then
        .error "Merging of Vector into Scalar is not supported"
      else .ok (.merge lhs rhs mode)

/-- Insertion-ordered map update (JavaScript object / immutable Map
`set`): replace in place if present, else append. -/
def setAssoc {α : Type} (l : List (String × α)) (k : String) (v : α) :
    List (String × α) :=
  if l.any (fun p => p.1 = k) then l.map (fun p => if p.1 = k then (k, v) else p)
  else l ++ [(k, v)]

/-- Assoc lookup (`Map.get` / object property read). -/
def assocGet {α : Type} (l : List (String × α)) (k : String) : Option α :=
  (l.find? (fun p => p.1 = k)).map Prod.snd

/-- `ScopedExpression.resolve`: the local table first, then the parent
chain. -/
def resolveScope : Expr → String → Option Expr
  | .scope table parent _, name =>
    (match assocGet table name with
     | some e => some e
     | none =>
       match parent with
       | some p => resolveScope p name
       | none => none)
  | _, _ => none

/-! ## Evaluator (ast_to_fn.ts) -/

/-- An evaluation failure: a thrown error message, or fuel exhaustion of
the model (the source has unbounded recursion through identifier
resolution). -/
inductive EvalErr where
  | thrown (msg : String)
  | noFuel
deriving Repr

/-- `typeof v === 'object'` (arrays included — the detail behind the
dead `Array.isArray` branch of `deepMerge`). -/
def isObjLike : Value → Bool
  | .obj _ => true
  | .arr _ => true
  | _ => false

/-- `Array.isArray`. -/
def isArrV : Value → Bool
  | .arr _ => true
  | _ => false

/-- Index-keyed entries, as JavaScript enumerates arrays and strings. -/
def enumEntries (xs : List Value) : List (String × Value) :=
  xs.enum.map (fun p => (Nat.repr p.1, p.2))

/-- `Object.entries(v)`: fields of an object, index-keyed elements of an
array, index-keyed one-character strings of a string, nothing for
primitives. -/
def entriesOf : Value → List (String × Value)
  | .obj fs => fs
  | .arr xs => enumEntries xs
  | .str s => s.data.enum.map (fun p => (Nat.repr p.1, Value.str (String.mk [p.2])))
  | _ => []

/-- The spread `{...lhs}` (same enumeration as `Object.entries`). -/
def spreadObj (v : Value) : List (String × Value) := entriesOf v

/-- A canonical array index: a digit string whose decimal reading
prints back to itself (JavaScript `arr["01"]` is not an element read). -/
def parseIndex (k : String) : Option Nat :=
  if k.data ≠ [] ∧ k.data.all Char.isDigit then
    let n := k.data.foldl (fun acc c => acc * 10 + (c.toNat - 48)) 0
    if Nat.repr n = k then some n else none
  else none

/-- Property read `lhs[key]` (object fields; canonical numeric indices
of arrays and strings; `undefined` i.e. `none` otherwise). -/
def jsGet (v : Value) (k : String) : Option Value :=
  match v with
  | .obj fs => assocGet fs k
  | .arr xs =>
    (match parseIndex k with
     | some n => xs.get? n
     | none => none)
  | .str s =>
    (match parseIndex k with
     | some n => (s.data.get? n).map (fun c => Value.str (String.mk [c]))
     | none => none)
  | _ => none

/-- The dead concatenation in `deepMerge`'s `Array.isArray` branch. -/
def concatArrays (a b : Value) : Value :=
  match a, b with
  | .arr xs, .arr ys => .arr (xs ++ ys)
  | _, _ => .undefV

/-- The `for (const [key, rhsValue] of Object.entries(rhs))` loop of
`deepMerge`, folding into the result object; the recursive `deepMerge`
call on two object-like values is inlined (its `undefined` guards cannot
fire there).  Note the branch order of the source: `typeof rhsValue ===
'object'` is tested first and is true for arrays, so the
`Array.isArray(rhsValue)` branch below it is unreachable. -/
def dmEntries : Nat → Value →
    List (String × Value) → List (String × Value) → Except EvalErr (List (String × Value))
  | 0, _, _, _ => .error .noFuel
  | _ + 1, _, [], acc => .ok acc
  | fuel + 1, lhs, (k, rv) :: rest, acc =>
    let lv := jsGet lhs k
    if isObjLike rv then
      match lv with
      | none => dmEntries fuel lhs rest (setAssoc acc k rv)
      | some lvv =>
        if isObjLike lvv then do
          let fs ← dmEntries fuel lvv (entriesOf rv) (spreadObj lvv)
          dmEntries fuel lhs rest (setAssoc acc k (.obj fs))
        else .error (.thrown ("Cannot merge object into non-object value at key " ++ k))
    else if isArrV rv then
      match lv with
      | none => dmEntries fuel lhs rest (setAssoc acc k rv)
      | some lvv =>
        if isArrV lvv then dmEntries fuel lhs rest (setAssoc acc k (concatArrays lvv rv))
        else .error (.thrown ("Cannot merge array into non-array value at key " ++ k))
    else dmEntries fuel lhs rest (setAssoc acc k rv)

/-- `deepMerge` of ast_to_fn.ts: `undefined` operands short-circuit,
then the entries of `rhs` are folded over a spread copy of `lhs`. -/
def deepMerge : Nat → Value → Value → Except EvalErr Value
  | 0, _, _ => .error .noFuel
  | fuel + 1, lhs, rhs =>
    match lhs, rhs with
    | .undefV, rhs => .ok rhs
    | lhs, .undefV => .ok lhs
    | lhs, rhs => do
      let fs ← dmEntries fuel lhs (entriesOf rhs) (spreadObj lhs)
      .ok (.obj fs)

/-- The regex test `/[\d+(.\d+)]/.test(id)` in `applicationToFn`: a
character class, i.e. "does the identifier contain a digit, `+`, `(`,
`.` or `)`". -/
def appLooksNumeric (id : String) : Bool :=
  id.data.any (fun c => c.isDigit || c = '+' || c = '(' || c = '.' || c = ')')

/-- JavaScript `Number(id)` restricted to the shapes this program feeds
it: plain decimal literals convert, everything else is `NaN` (an
approximation of the full `Number()` grammar; no claim depends on the
exotic cases). -/
def jsNumber (s : String) : Value :=
  if isNumericLit s.data then .num s else .nanV

/-- The literal pre-computation of `applicationToFn`: a numeric-looking
identifier becomes `Number(id)`, then a quoted identifier overrides with
the text between the quotes. -/
def appPreValue (id : String) : Option Value :=
  let v1 : Option Value := if appLooksNumeric id then some (jsNumber id) else none
  if id.data.head? = some '"' ∧ id.data.getLast? = some '"' then
    some (.str (String.mk id.data.tail.dropLast))
  else v1

/-- The evaluation context of ast_to_fn.ts (`values` is stored by
`astToFn` but never read back). -/
structure Ctx where
  values : List (String × Value)
  identifiers : List (String × Expr)
  stack : List Value
deriving Repr

mutual

/-- `expressionToFn` composed with application to a context: a direct
interpreter for the compiled evaluator.  The returned stack is the
context's `stack` array after the call (the source mutates it in place);
section evaluation clones the context, so sections never change their
caller's stack.  Fuel is consumed at every recursive step; the sources
of true divergence are cyclic identifier references. -/
def evalE : Nat → Expr → Ctx → Except EvalErr (Value × List Value)
  | 0, _, _ => .error .noFuel
  | fuel + 1, e, ctx =>
    match e with
    | .block ss =>
      if ss.any List.isEmpty then .error (.thrown "Empty sections are not supported")
      else
        match ss with
        | [s] => evalSection fuel s ctx
        | _ => do
          let vs ← evalSections fuel ss ctx
          .ok (.arr vs, ctx.stack)
    | .assignment _ _ => .error (.thrown "Assignments are not directly executable")
    | .unit => .ok (.unitV, ctx.stack)
    | .scalar v _ => .ok (v, ctx.stack)
    | .vector _ => .ok (.undefV, ctx.stack)
    | .yieldE op => evalE fuel op ctx
    | .lift op => do
      let r ← evalE fuel op ctx
      match r.1 with
      | .arr xs => .ok (.arr xs, r.2)
      | v => .ok (.arr [v], r.2)
    | .merge l r _ => do
      let lr ← evalE fuel l ctx
      let rr ← evalE fuel r { ctx with stack := lr.2 }
      match card l with
      | none => .error (.thrown "TypeError")
      | some c =>
        if c = .vector then
          match lr.1 with
          | .arr xs =>
            (match rr.1 with
             | .arr ys => .ok (.arr (xs ++ ys), rr.2)
             | rv => .ok (.arr (xs ++ [rv]), rr.2))
          | _ => .error (.thrown "LHS of Merge expected to be an array")
        else do
          let m ← deepMerge (fuel + 1) lr.1 rr.1
          .ok (m, rr.2)
    | .application id op => do
      let st1 ← (match op with
        | some o => do
          let r ← evalE fuel o ctx
          pure r.2
        | none => pure ctx.stack)
      match appPreValue id with
      | some v =>
        let st2 := st1 ++ [v]
        .ok (.num (Nat.repr st2.length), st2)
      | none =>
        match assocGet ctx.identifiers id with
        | none => .error (.thrown ("Identifier " ++ id ++ " not found in context"))
        | some rexpr => do
          let rr ← evalE fuel rexpr { ctx with stack := st1 }
          .ok (rr.1, rr.2 ++ [rr.1])
    | .funcDef _ _ => .error (.thrown "TypeError")
    | .pipelineE => .error (.thrown "Pipelines are not yet supported")
    | .scope _ _ _ => .error (.thrown "Didn't expect to get here")

/-- The multi-section loop of `blockToFn` (each section evaluated
against the same context). -/
def evalSections : Nat → List (List Expr) → Ctx → Except EvalErr (List Value)
  | 0, _, _ => .error .noFuel
  | _ + 1, [], _ => .ok []
  | fuel + 1, s :: rest, ctx => do
    let r ← evalSection fuel s ctx
    let vs ← evalSections fuel rest ctx
    .ok (r.1 :: vs)

/-- `sectionToFn` applied to a context: empty sections throw; otherwise
run the assignments (building the struct object and binding
identifiers), then the yields; the section's value is the yield list if
any, else the evaluated trailing expression if it is not an assignment,
else the struct object.  The caller's stack is untouched (the source
clones the context). -/
def evalSection : Nat → List Expr → Ctx → Except EvalErr (Value × List Value)
  | 0, _, _ => .error .noFuel
  | fuel + 1, s, ctx =>
    match s.getLast? with
    | none => .error (.thrown "Empty sections are not supported")
    | some lastE => do
      let a ← evalAsgs fuel (s.filter isAsg) ctx ctx.identifiers [] ctx.stack
      let y ← evalYields fuel (s.filter isYieldE) ctx a.1 a.2.2
      if y.1.isEmpty then
        if isAsg lastE then .ok (.obj a.2.1, ctx.stack)
        else do
          let r ← evalE fuel lastE { ctx with identifiers := a.1, stack := y.2 }
          .ok (r.1, ctx.stack)
      else .ok (.arr y.1, ctx.stack)

/-- The assignment loop of `sectionToFn`: each assignment binds its
operand expression under its key, and (unless the operand is a function
definition) evaluates it into the struct object.  State:
identifiers, struct object, stack. -/
def evalAsgs : Nat → List Expr → Ctx → List (String × Expr) →
    List (String × Value) → List Value →
    Except EvalErr (List (String × Expr) × List (String × Value) × List Value)
  | 0, _, _, _, _, _ => .error .noFuel
  | _ + 1, [], _, ids, obj, stk => .ok (ids, obj, stk)
  | fuel + 1, e :: rest, ctx, ids, obj, stk =>
    match e with
    | .assignment key opOpt =>
      (match opOpt with
       | none => .error (.thrown "TypeError")
       | some op =>
         let ids' := setAssoc ids key op
         match op with
         | .funcDef _ _ => evalAsgs fuel rest ctx ids' obj stk
         | _ => do
           let r ← evalE fuel op { ctx with identifiers := ids', stack := stk }
           evalAsgs fuel rest ctx ids' (setAssoc obj key r.1) r.2)
    | _ => evalAsgs fuel rest ctx ids obj stk

/-- The yield loop of `sectionToFn`. -/
def evalYields : Nat → List Expr → Ctx → List (String × Expr) → List Value →
    Except EvalErr (List Value × List Value)
  | 0, _, _, _, _ => .error .noFuel
  | _ + 1, [], _, _, stk => .ok ([], stk)
  | fuel + 1, e :: rest, ctx, ids, stk => do
    let r ← evalE fuel e { ctx with identifiers := ids, stack := stk }
    let rs ← evalYields fuel rest ctx ids r.2
    .ok (r.1 :: rs.1, rs.2)

end

/-! ## Token stream (stream.ts) and parser (expression.ts)

The parser communicates through a module-global `STACK`; the model
threads it explicitly (bottom of the stack first, so `STACK.findLast`
searches from the end).  The source mutates expressions that are already
on the stack (`assignment.setOperand`, `scope.operand = ...`,
`application.operand = ...`); the model performs those writes by
position — the object being mutated was pushed at a known index and, in
every flow the source's own invariants allow, is still there when it is
next read.  Popping an empty `STACK` yields JavaScript `undefined`; the
model reports the crash that its first subsequent typed use would raise
(`TypeError`). -/

/-- The cursor of stream.ts.  `pointer = none` models the `NaN` that
`consume()` produces when called with no argument (as `expressionChain`
always does): `this.pointer += undefined` is `NaN`, after which every
comparison on the pointer is false — `hasMore` is false, `peek` and
`next` return `undefined`, `backtrack` neither throws nor moves. -/
structure TokStream where
  items : List Token
  pointer : Option Nat
deriving Repr

/-- `Stream.hasMore`. -/
def TokStream.hasMore (s : TokStream) : Bool :=
  match s.pointer with
  | some p => p < s.items.length
  | none => false

/-- `Stream.peek()` (offset 0, as the parser always calls it). -/
def TokStream.peekT (s : TokStream) : Option Token :=
  match s.pointer with
  | some p => s.items.get? p
  | none => none

/-- `Stream.next()`. -/
def TokStream.nextT (s : TokStream) : Option Token × TokStream :=
  match s.pointer with
  | some p =>
    if p < s.items.length then (s.items.get? p, { s with pointer := some (p + 1) })
    else (none, s)
  | none => (none, s)

/-- `Stream.backtrack()` (count 1, as the parser calls it). -/
def TokStream.backtrackT (s : TokStream) : Except String TokStream :=
  match s.pointer with
  | some p =>
    if p = 0 then .error "Cannot backtrack beyond the start of the stream"
    else .ok { s with pointer := some (p - 1) }
  | none => .ok s

/-- `Stream.consume()` with no argument: the pointer becomes `NaN`. -/
def TokStream.consumeNoArg (s : TokStream) : TokStream := { s with pointer := none }

/-- Parser state: the cursor plus the global expression stack. -/
structure PSt where
  stream : TokStream
  stack : List Expr
deriving Repr

def pushE (st : PSt) (e : Expr) : PSt := { st with stack := st.stack ++ [e] }

/-- `STACK.pop()`: `undefined` (`none`) on an empty stack. -/
def popE (st : PSt) : Option Expr × PSt :=
  (st.stack.getLast?, { st with stack := st.stack.dropLast })

def setSlot (st : PSt) (i : Nat) (e : Expr) : PSt := { st with stack := st.stack.set i e }

def isScopeE : Expr → Bool
  | .scope _ _ _ => true
  | _ => false

def isAppE : Expr → Bool
  | .application _ _ => true
  | _ => false

def isFuncE : Expr → Bool
  | .funcDef _ _ => true
  | _ => false

/-- `STACK.findLast(e => e.type === "Scope")`. -/
def findLastScope (stack : List Expr) : Option Expr :=
  stack.reverse.find? isScopeE

/-- The `type` discriminant strings, for error messages. -/
def tokenTypeName : Token → String
  | .assignment _ _ _ => "Assignment"
  | .newline _ _ _ => "Newline"
  | .hyphen _ _ _ _ => "Hyphen"
  | .string _ _ _ => "String"
  | .number _ _ _ => "Number"
  | .bool _ _ _ => "Bool"
  | .symbol _ _ _ => "Symbol"
  | .unknown _ _ _ => "Unknown"
  | .indent _ _ => "Indent"
  | .outdent _ _ => "Outdent"
  | .accessor _ _ => "Accessor"
  | .eof _ _ => "EOF"
  | .lift _ _ => "Lift"
  | .pipeline _ _ => "Pipeline"
  | .hardMerge _ _ => "HardMerge"
  | .softMerge _ _ => "SoftMerge"
  | .patternMatch _ _ => "PatternMatch"
  | .comment _ _ => "Comment"
  | .sectionStart _ _ => "SectionStart"
  | .openParen _ _ => "OpenParen"
  | .closeParen _ _ => "CloseParen"
  | .emptyObject _ _ => "EmptyObject"
  | .emptyList _ _ => "EmptyList"
  | .fn _ _ => "Fn"

/-- `BlockExpression.pushExr`: start a section if none exists, then
append to the last one. -/
def pushExr (sections : List (List Expr)) (e : Expr) : List (List Expr) :=
  match sections with
  | [] => [[e]]
  | ss => ss.dropLast ++ [(ss.getLast?.getD []) ++ [e]]

/-- Bounded form of `unwindWhile("Application")`: each step pops one
element, so the stack length bounds the loop. -/
def unwindAppsB : Nat → List Expr → List Expr × List Expr
  | 0, stack => ([], stack)
  | b + 1, stack =>
    match stack.getLast? with
    | some (.application id op) =>
      let r := unwindAppsB b stack.dropLast
      ((Expr.application id op) :: r.1, r.2)
    | _ => ([], stack)

/-- `unwindWhile("Application")`: pop while the top of the stack is an
`Application`, collecting in pop order. -/
def unwindAppsL (stack : List Expr) : List Expr × List Expr :=
  unwindAppsB stack.length stack

/-- The `for (const id of ids)` loop of `parseFunctionDefinition`: each
pop may find an empty stack (`undefined` body). -/
def foldFnDefs : List Expr → PSt → PSt
  | [], st => st
  | id :: rest, st =>
    let p := popE st
    let name := match id with
      | .application n _ => n
      | _ => ""
    foldFnDefs rest (pushE p.2 (.funcDef name p.1))

mutual

/-- `BuildAst`'s workhorse `parseBlock`: pushes a fresh `Block` on the
stack, loops over the token stream and, on `Outdent`/`EOF`, writes the
finished block back into its stack slot.  Running off the end of the
stream without an `Outdent`/`EOF` throws `"Expected Outdent"` — which
also happens whenever the cursor has been turned to `NaN` by a
no-argument `consume()`. -/
def parseBlockM : Nat → PSt → Except String PSt
  | 0, _ => .error "out of fuel"
  | fuel + 1, st =>
    let idx := st.stack.length
    blockLoop fuel idx [] [] [] (pushE st (.block []))

/-- The `while (tkns.hasMore)` loop of `parseBlock`.  `sections` is the
block under construction; `curT` the current section's symbol table;
`ftT` the front-matter table (`frontMatterSymbolTable ||= ...` never
fires because the initial immutable `Map()` is truthy, so on every
`SectionStart` the current table is reset to this initial empty map). -/
def blockLoop : Nat → Nat → List (List Expr) → List (String × Expr) →
    List (String × Expr) → PSt → Except String PSt
  | 0, _, _, _, _, _ => .error "out of fuel"
  | fuel + 1, idx, sections, curT, ftT, st =>
    if st.stream.hasMore then
      match st.stream.nextT with
      | (none, _) => .error "TypeError"
      | (some tok, stream') =>
        let st := { st with stream := stream' }
        match tok with
        | .newline _ _ _ => blockLoop fuel idx sections curT ftT st
        | .sectionStart _ _ => blockLoop fuel idx (sections ++ [[]]) ftT ftT st
        | .indent _ _ => do
          let st ← parseBlockM fuel st
          let p := popE st
          match p.1 with
          | none => .error "TypeError"
          | some b => blockLoop fuel idx (pushExr sections b) curT ftT p.2
        | .eof _ _ => .ok (setSlot st idx (.block sections))
        | .outdent _ _ => .ok (setSlot st idx (.block sections))
        | .symbol sstr _ _ =>
          let nextTok := st.stream.peekT
          let parentScope := findLastScope st.stack
          let scopeIdx := st.stack.length
          let st := pushE st (.scope curT parentScope none)
          (match nextTok with
           | none => .error "Unexpected end of tokens after Atom"
           | some nt =>
             if sstr = "yield" then
               match nt with
               | .symbol _ _ _ => do
                 let st ← parseApplicationM fuel st
                 let p := popE st
                 match p.1 with
                 | none => .error "TypeError"
                 | some op =>
                   let st := setSlot p.2 scopeIdx (.scope curT parentScope (some op))
                   let q := popE st
                   match q.1 with
                   | none => .error "TypeError"
                   | some sc => blockLoop fuel idx (pushExr sections (.yieldE sc)) curT ftT q.2
               | .indent _ _ => do
                 let st := { st with stream := (st.stream.nextT).2 }
                 let st ← parseBlockM fuel st
                 let p := popE st
                 match p.1 with
                 | none => .error "TypeError"
                 | some op =>
                   let st := setSlot p.2 scopeIdx (.scope curT parentScope (some op))
                   let q := popE st
                   match q.1 with
                   | none => .error "TypeError"
                   | some sc => blockLoop fuel idx (pushExr sections (.yieldE sc)) curT ftT q.2
               | _ => .error "Yield must be used as 'yield <expression>'"
             else
               match nt with
               | .assignment _ _ _ => do
                 let st := { st with stream := (st.stream.nextT).2 }
                 let asgIdx := st.stack.length
                 let st := pushE st (.assignment sstr none)
                 let st ← expressionChainM fuel st
                 let p := popE st
                 match p.1 with
                 | none => .error "TypeError"
                 | some operand =>
                   let st := setSlot p.2 asgIdx (.assignment sstr (some operand))
                   let q := popE st
                   match q.1 with
                   | none => .error "TypeError"
                   | some x =>
                     let scopeVal := Expr.scope curT parentScope (some x)
                     let st := setSlot q.2 scopeIdx scopeVal
                     let curT' := setAssoc curT sstr scopeVal
                     let r := popE st
                     match r.1 with
                     | none => .error "TypeError"
                     | some y => blockLoop fuel idx (pushExr sections y) curT' ftT r.2
               | _ => do
                 let st ← (match st.stream.backtrackT with
                   | .error m => .error m
                   | .ok s' => .ok { st with stream := s' })
                 let st ← parseApplicationM fuel st
                 let p := popE st
                 match p.1 with
                 | none => .error "TypeError"
                 | some _ =>
                   let q := popE p.2
                   match q.1 with
                   | none => .error "TypeError"
                   | some x => blockLoop fuel idx (pushExr sections x) curT ftT q.2)
        | t => .error ("Unexpected token type in block: " ++ tokenTypeName t)
    else .error "Expected Outdent"

/-- `parseApplication`: consume a `Symbol`; if another symbol follows,
build a curried `Application` head and recurse; otherwise resolve the
identifier against the nearest scope on the stack and fall into an
expression chain. -/
def parseApplicationM : Nat → PSt → Except String PSt
  | 0, _ => .error "out of fuel"
  | fuel + 1, st =>
    let n := st.stream.nextT
    let st := { st with stream := n.2 }
    match n.1 with
    | none => .error "TypeError"
    | some (.symbol astr _ _) =>
      (match st.stream.peekT with
       | none => .error "TypeError"
       | some (.symbol _ _ _) => do
         let appIdx := st.stack.length
         let st := pushE st (.application astr none)
         let st ← parseApplicationM fuel st
         (match st.stack.getLast? with
          | none => .error "TypeError"
          | some top =>
            if isFuncE top then .ok st
            else
              let p := popE st
              match p.1 with
              | none => .error "TypeError"
              | some operand => .ok (setSlot p.2 appIdx (.application astr (some operand))))
       | some _ =>
         match findLastScope st.stack with
         | none => .error "TypeError"
         | some sc =>
           match resolveScope sc astr with
           | none => expressionChainM fuel (pushE st (.application astr none))
           | some resolved => expressionChainM fuel (pushE st resolved))
    | some _ => .error "Expected Atom token at start of application"

/-- `expressionChain`: parse one right-hand-side expression from the
next token.  Every `tkns.consume()` here is the no-argument call, which
turns the cursor to `NaN`. -/
def expressionChainM : Nat → PSt → Except String PSt
  | 0, _ => .error "out of fuel"
  | fuel + 1, st =>
    match st.stream.peekT with
    | none => .error "TypeError"
    | some tkn =>
      match tkn with
      | .outdent _ _ => .ok st
      | .eof _ _ => .ok st
      | .newline _ _ _ => .ok st
      | .emptyObject _ _ =>
        .ok (pushE { st with stream := st.stream.consumeNoArg } (.scalar (.obj []) .unitT))
      | .emptyList _ _ =>
        .ok (pushE { st with stream := st.stream.consumeNoArg } (.vector []))
      | .string s _ _ =>
        .ok (pushE { st with stream := st.stream.consumeNoArg }
          (.scalar (.str s) (.stringT (some s))))
      | .number raw _ _ =>
        .ok (pushE { st with stream := st.stream.consumeNoArg }
          (.scalar (.num raw) (.numberT (some raw) (some raw))))
      | .indent _ _ => parseBlockM fuel { st with stream := st.stream.consumeNoArg }
      | .symbol _ _ _ => parseApplicationM fuel st
      | .pipeline _ _ =>
        expressionChainM fuel (pushE { st with stream := st.stream.consumeNoArg } .pipelineE)
      | .fn _ _ => parseFnDefM fuel { st with stream := st.stream.consumeNoArg }
      | .softMerge _ _ => chainMerge fuel st .soft
      | .hardMerge _ _ => chainMerge fuel st .hard
      | t => .error ("Unexpected token type in expression chain: " ++ tokenTypeName t)

/-- The `HardMerge`/`SoftMerge` case of `expressionChain`: pop the left
side, parse the right side, pop it, and run the `Merge` constructor
(whose cardinality calls crash on an `undefined` operand). -/
def chainMerge : Nat → PSt → MergeMode → Except String PSt
  | 0, _, _ => .error "out of fuel"
  | fuel + 1, st, mode => do
    let st := { st with stream := st.stream.consumeNoArg }
    let p := popE st
    let st ← expressionChainM fuel p.2
    let q := popE st
    match p.1, q.1 with
    | some lhs, some rhs =>
      (match mergeExpr lhs rhs mode with
       | .error m => .error m
       | .ok m => .ok (pushE q.2 m))
    | _, _ => .error "TypeError"

/-- `parseFunctionDefinition`: reinterpret the `Application`s on top of
the stack as curried parameters, parse the body, then wrap. -/
def parseFnDefM : Nat → PSt → Except String PSt
  | 0, _ => .error "out of fuel"
  | fuel + 1, st =>
    let u := unwindAppsL st.stack
    let st := { st with stack := u.2 }
    do
      let st ← expressionChainM fuel st
      .ok (foldFnDefs u.1 st)

end

/-- `BuildAst`: push the root scope, parse the document block, check the
stack shape, graft the block into the root scope and return it. -/
def buildAst (fuel : Nat) (tokens : List Token) : Except String Expr := do
  let st0 : PSt :=
    { stream := { items := tokens, pointer := some 0 },
      stack := [.scope [] none (some .unit)] }
  let st ← parseBlockM fuel st0
  let p := popE st
  if p.2.stack.length ≠ 1 then .error "Stack is not empty after parsing block"
  else
    match p.1 with
    | some (.block ss) =>
      (match p.2.stack with
       | [.scope [] none (some .unit)] => .ok (.scope [] none (some (.block ss)))
       | [e] => .ok e
       | _ => .error "Stack is not empty after parsing block")
    | some _ => .error "Top of stack is not a Block expression"
    | none => .error "Stack is not empty after parsing block"

/-! ## Helper definitions for the verified properties -/

/-- The empty evaluation context (`astToFn` applied to `{}`). -/
def ctx0 : Ctx := ⟨[], [], []⟩

/-- The lexer never returns on `s`, whatever fuel the model grants. -/
def lexerDivergesOn (s : String) : Prop := ∀ fuel, getTokens fuel s = .diverge

def isIndentTok : Token → Bool
  | .indent _ _ => true
  | _ => false

def isOutdentTok : Token → Bool
  | .outdent _ _ => true
  | _ => false

/-! ## Claim theorems -/

/-- C1: the spec's end-to-end scenario for `"key: value"`.  The lexing
half is exactly as claimed — `[Symbol "key", Assignment(literal=true),
String "value", EOF]` — but parsing that token sequence does not yield a
Block: `expressionChain` consumes the `String` token with the
no-argument `Stream.consume()`, which sets the cursor to `NaN`
(`this.pointer += undefined`), so `parseBlock`'s loop believes the
stream is exhausted and throws `"Expected Outdent"`.  The claimed
evaluation to `{"key": "value"}` is therefore unreachable. -/
theorem c1_lexes_but_parse_throws :
    getTokens 100 "key: value" =
      .tokens [.symbol "key" 0 3, .assignment true 3 4, .string "value" 5 10, .eof 10 10] ∧
    buildAst 100 [.symbol "key" 0 3, .assignment true 3 4, .string "value" 5 10, .eof 10 10] =
      .error "Expected Outdent" :=
  ⟨rfl, rfl⟩

/-- C2: unrecognized characters are indeed accumulated into an `Unknown`
token and scanning continues (shown on `"{x"`), but tokenization does
not run to completion on every input: after a literal assignment, a
quoted literal with no closing quote makes `quotedLiteral`'s scan
(`while (!QUOTES.has(src[i])) i++`, no bounds check) run forever. -/
theorem c2_unknown_resync_but_unterminated_quote_diverges :
    getTokens 100 (String.mk ['\x7b', 'x']) = .tokens [.unknown "x" 0 1, .symbol "x" 1 2, .eof 2 2] ∧
    lexerDivergesOn (String.mk ['k', ':', ' ', '"', 'v']) := by
  refine ⟨rfl, ?_⟩
  intro fuel
  match fuel with
  | 0 => rfl
  | 1 => rfl
  | 2 => rfl
  | _ + 3 => rfl

/-- C4 (counterexample): a block with one empty section is struct-shaped
by the code's own classification (`every` on an empty list is true), so
its cardinality is Scalar — but the evaluator does not produce a
mapping for it: `sectionToFn` throws `"Empty sections are not
supported"`.  The claimed exact agreement between the classification and
the value shaping fails at this block. -/
theorem c4_counterexample_empty_section :
    blockIsStruct [[]] = true ∧
    card (.block [[]]) = some Card.scalar ∧
    evalE 5 (.block [[]]) ctx0 = .error (.thrown "Empty sections are not supported") :=
  ⟨rfl, rfl, rfl⟩

/-- C6: merging two mappings that hold sequences at the same key does
not concatenate.  `typeof rhsValue === 'object'` is true for arrays, so
both arrays are deep-merged as index-keyed objects (the
`Array.isArray(rhsValue)` concatenation branch is dead code):
`{"k": [1]}` merged with `{"k": [2]}` gives `{"k": {"0": 2}}`, not
`{"k": [1, 2]}`. -/
theorem c6_sequences_not_concatenated :
    deepMerge 10 (.obj [("k", .arr [.num "1"])]) (.obj [("k", .arr [.num "2"])]) =
      .ok (.obj [("k", .obj [("0", .num "2")])]) := rfl

/-- C7 (counterexample): two consecutive section separators parse
without any error — lexing `"---\n---\n"` and running `BuildAst` on the
result succeeds, producing a block with two empty sections.  No
parse-tier error is raised for empty sections. -/
theorem c7_counterexample_empty_sections_parse :
    getTokens 100 "---\n---\n" =
      .tokens [.sectionStart 0 3, .newline 0 3 4, .sectionStart 4 7, .newline 0 7 8, .eof 8 8] ∧
    buildAst 100 [.sectionStart 0 3, .newline 0 3 4, .sectionStart 4 7, .newline 0 7 8, .eof 8 8] =
      .ok (.scope [] none (some (.block [[], []]))) :=
  ⟨rfl, rfl⟩

/-- C7 (amended): the empty-section failure is real but lives in the
evaluation stage, not the parser — compiling a block that contains an
empty section throws `"Empty sections are not supported"`
(`sectionToFn`), for any fuel and any context. -/
theorem c7_amended_error_at_evaluation_tier :
    ∀ fuel ctx, evalE (fuel + 1) (.block [[], []]) ctx =
      .error (.thrown "Empty sections are not supported") := by
  intro fuel ctx
  rfl

/-- C8: the trailing newline is never appended — `source.concat('\n')`
discards its result, since JavaScript strings are immutable.  Empty
input does return a single `EOF`, but a non-empty input without a final
newline tokenizes differently from the same input with one: `"a"` gives
`[Symbol, EOF]` while `"a\n"` gives `[Symbol, Newline, EOF]`. -/
theorem c8_no_trailing_newline_appended :
    getTokens 50 "" = .tokens [.eof 0 0] ∧
    getTokens 50 "a" = .tokens [.symbol "a" 0 1, .eof 1 1] ∧
    getTokens 50 "a\n" = .tokens [.symbol "a" 0 1, .newline 0 1 2, .eof 2 2] ∧
    getTokens 50 "a" ≠ getTokens 50 "a\n" :=
  ⟨rfl, rfl, rfl, by decide⟩

/-- C9: tokenization does not terminate on every input.  On
an unterminated quoted literal (`a: "b`) the scan for a closing quote runs past the end of input
forever; moreover the no-progress check of the main loop
(`console.error('Lexer did not advance! ...')`) only logs — unlike the
earlier lexer revision in the same file, it has no `break`, so it would
not stop the scan either. -/
theorem c9_lexer_does_not_terminate :
    lexerDivergesOn (String.mk ['a', ':', ' ', '"', 'b']) := by
  intro fuel
  match fuel with
  | 0 => rfl
  | 1 => rfl
  | 2 => rfl
  | _ + 3 => rfl

/-- C10 (counterexample): when both operands have Unit cardinality the
`Merge` constructor returns `lhs`, not `rhs` — the right-Unit test runs
first.  With `lhs = Unit()` and `rhs` an empty block (also of Unit
cardinality, and a different expression), `Merge(lhs, rhs)` is `lhs`,
refuting "if lhs has Unit cardinality then it returns rhs itself". -/
theorem c10_counterexample_both_unit :
    card (Expr.block []) = some Card.unit ∧
    mergeExpr .unit (.block []) .hard = .ok .unit ∧
    Expr.unit ≠ Expr.block [] :=
  ⟨rfl, rfl, fun h => Expr.noConfusion h⟩

/-- C10 (amended): for operands whose cardinality calls succeed, a
Unit-cardinality `rhs` makes `Merge` return `lhs` unchanged, and a
Unit-cardinality `lhs` makes it return `rhs` provided `rhs` is not
itself Unit; in both cases no `Merge` node is built, so no
merge-evaluation error can arise from a Unit operand. -/
theorem c10_amended_unit_identity (lhs rhs : Expr) (mode : MergeMode) (lc rc : Card)
    (hl : card lhs = some lc) (hr : card rhs = some rc) :
    (rc = .unit → mergeExpr lhs rhs mode = .ok lhs) ∧
    (lc = .unit → rc ≠ .unit → mergeExpr lhs rhs mode = .ok rhs) := by
  constructor
  · intro h
    subst h
    simp [mergeExpr, hl, hr]
  · intro h1 h2
    subst h1
    simp [mergeExpr, hl, hr, h2]

/-- Witness for C10 (amended) at `lhs = Unit()`, `rhs = Scalar("s")`. -/
theorem c10_amended_unit_identity_witness :
    mergeExpr .unit (.scalar (.str "s") (.stringT none)) .hard =
      .ok (.scalar (.str "s") (.stringT none)) :=
  (c10_amended_unit_identity .unit (.scalar (.str "s") (.stringT none)) .hard
    .unit .scalar rfl rfl).2 rfl (fun h => Card.noConfusion h)

/-! Supporting lemmas for C4 and C5. -/

theorem excBindError {γ α β : Type} (e : γ) (f : α → Except γ β) :
    (Except.error e >>= f) = Except.error e := rfl

theorem excBindOk {γ α β : Type} (a : α) (f : α → Except γ β) :
    (Except.ok a >>= f) = f a := rfl

theorem isAsg_not_yieldE {e : Expr} (h : isAsg e = true) : isYieldE e = false := by
  cases e <;> simp [isAsg, isYieldE] at *

/-- A single-section block evaluates exactly as its section does
(`blockToFn` returns `sectionsFns[0]`). -/
theorem evalBlock_single (fuel : Nat) (s : List Expr) (ctx : Ctx) (hne : s ≠ []) :
    evalE (fuel + 1) (.block [s]) ctx = evalSection fuel s ctx := by
  cases s with
  | nil => exact absurd rfl hne
  | cons e rest => rfl

/-- A non-empty all-assignments section that evaluates successfully
produces a mapping, and leaves the caller's stack untouched. -/
theorem evalSection_struct (fuel : Nat) (s : List Expr) (ctx : Ctx) (v : Value)
    (st : List Value) (hne : s ≠ []) (hall : ∀ e ∈ s, isAsg e = true)
    (h : evalSection fuel s ctx = .ok (v, st)) :
    (∃ fields, v = .obj fields) ∧ st = ctx.stack := by
  match fuel with
  | 0 => exact absurd h (by simp [evalSection])
  | fuel + 1 =>
    obtain ⟨lastE, hlast⟩ : ∃ le, s.getLast? = some le := by
      cases hq : s.getLast? with
      | none => exact absurd (List.getLast?_eq_none_iff.mp hq) hne
      | some le => exact ⟨le, rfl⟩
    have hfy : s.filter isYieldE = [] := by
      rw [List.filter_eq_nil]
      intro e he
      simp [isAsg_not_yieldE (hall e he)]
    simp only [evalSection, hlast, hfy] at h
    cases ha : evalAsgs fuel (s.filter isAsg) ctx ctx.identifiers [] ctx.stack with
    | error e => rw [ha, excBindError] at h; exact absurd h (by simp)
    | ok a =>
      rw [ha, excBindOk] at h
      match fuel with
      | 0 =>
        rw [show evalYields 0 [] ctx a.1 a.2.2 = .error .noFuel from rfl, excBindError] at h
        exact absurd h (by simp)
      | fuel + 1 =>
        rw [show evalYields (fuel + 1) [] ctx a.1 a.2.2 = .ok ([], a.2.2) from rfl,
          excBindOk] at h
        have hlmem : lastE ∈ s := by
          obtain ⟨hh, heq⟩ := List.mem_getLast?_eq_getLast (l := s) (x := lastE)
            (by rw [hlast]; rfl)
          exact heq ▸ List.getLast_mem hh
        have hla : isAsg lastE = true := hall lastE hlmem
        simp only [List.isEmpty_nil, if_true, hla] at h
        have := Except.ok.inj h
        exact ⟨⟨a.2.1, (Prod.mk.injEq _ _ _ _ ▸ this).1.symm⟩,
          ((Prod.mk.injEq _ _ _ _ ▸ this).2).symm⟩

/-- A successful multi-section run returns, in order, each section's
value (each with enough fuel left for that section). -/
theorem evalSections_spec (fuel : Nat) (ss : List (List Expr)) (ctx : Ctx) (vs : List Value)
    (h : evalSections fuel ss ctx = .ok vs) :
    vs.length = ss.length ∧
    ∀ i (hi : i < ss.length) (hv : i < vs.length),
      ∃ f st', evalSection f (ss.get ⟨i, hi⟩) ctx = .ok (vs.get ⟨i, hv⟩, st') := by
  induction ss generalizing fuel vs with
  | nil =>
    match fuel with
    | 0 => exact absurd h (by simp [evalSections])
    | fuel + 1 =>
      have hvs : vs = [] := by
        have : (Except.ok [] : Except EvalErr (List Value)) = .ok vs := h ▸ rfl
        exact (Except.ok.inj this).symm
      subst hvs
      exact ⟨rfl, fun i hi => absurd hi (by simp)⟩
  | cons s rest ih =>
    match fuel with
    | 0 => exact absurd h (by simp [evalSections])
    | fuel + 1 =>
      simp only [evalSections] at h
      cases hr : evalSection fuel s ctx with
      | error e => rw [hr, excBindError] at h; exact absurd h (by simp)
      | ok r =>
        rw [hr, excBindOk] at h
        cases hrest : evalSections fuel rest ctx with
        | error e => rw [hrest, excBindError] at h; exact absurd h (by simp)
        | ok vs' =>
          rw [hrest, excBindOk] at h
          have hvs : vs = r.1 :: vs' := (Except.ok.inj h).symm
          subst hvs
          obtain ⟨hlen, hidx⟩ := ih fuel vs' hrest
          refine ⟨by simp [hlen], ?_⟩
          intro i hi hv
          match i with
          | 0 => exact ⟨fuel, r.2, by simpa using hr⟩
          | n + 1 =>
            have hi2 : n < rest.length := by simpa using hi
            have hv2 : n < vs'.length := by simpa using hv
            exact hidx n hi2 hv2

/-- A block with at least two sections that evaluates successfully
yields the ordered sequence of its sections' values. -/
theorem evalBlock_multi (fuel : Nat) (ss : List (List Expr)) (ctx : Ctx) (v : Value)
    (st : List Value) (hlen : 2 ≤ ss.length)
    (h : evalE (fuel + 1) (.block ss) ctx = .ok (v, st)) :
    st = ctx.stack ∧ ∃ vs, v = .arr vs ∧ vs.length = ss.length ∧
      ∀ i (hi : i < ss.length) (hv : i < vs.length),
        ∃ f st', evalSection f (ss.get ⟨i, hi⟩) ctx = .ok (vs.get ⟨i, hv⟩, st') := by
  match ss, hlen with
  | a :: b :: t, _ =>
    simp only [evalE] at h
    by_cases hemp : (a :: b :: t).any List.isEmpty
    · rw [if_pos hemp] at h; exact absurd h (by simp)
    · rw [if_neg hemp] at h
      cases hs : evalSections fuel (a :: b :: t) ctx with
      | error e => rw [hs, excBindError] at h; exact absurd h (by simp)
      | ok vs =>
        rw [hs, excBindOk] at h
        have hinj := Except.ok.inj h
        have hv : Value.arr vs = v := congrArg Prod.fst hinj
        have hst : ctx.stack = st := congrArg Prod.snd hinj
        obtain ⟨hl2, hidx⟩ := evalSections_spec fuel _ ctx vs hs
        exact ⟨hst.symm, vs, hv.symm, hl2, hidx⟩

/-- `BlockExpression.cardinality` agrees with the claimed
classification on every block. -/
theorem blockCard_classification (ss : List (List Expr)) :
    card (.block ss) =
      some (if ss.length = 0 then Card.unit
            else if 1 < ss.length then Card.vector
            else if ss.headI.all isAsg then Card.scalar
            else Card.vector) := by
  match ss with
  | [] => rfl
  | [s] => simp [card, blockCard, blockIsStruct, List.headI]
  | a :: b :: t => simp [card, blockCard, blockIsStruct]

/-- C4 (amended): the cardinality classification holds exactly as
claimed for every block, and the evaluator's shaping agrees with it
except on a single empty section (see the counterexample): a
single-section block evaluates to that section's value; a struct-shaped
section with at least one expression yields a mapping whenever it
evaluates successfully; and a multi-section block yields the ordered
sequence of its sections' values. -/
theorem c4_amended_cardinality_and_shaping :
    (∀ ss : List (List Expr), card (.block ss) =
      some (if ss.length = 0 then Card.unit
            else if 1 < ss.length then Card.vector
            else if ss.headI.all isAsg then Card.scalar
            else Card.vector)) ∧
    (∀ fuel (s : List Expr) ctx, s ≠ [] →
      evalE (fuel + 1) (.block [s]) ctx = evalSection fuel s ctx) ∧
    (∀ fuel (s : List Expr) ctx v st, s ≠ [] → (∀ e ∈ s, isAsg e = true) →
      evalE (fuel + 1) (.block [s]) ctx = .ok (v, st) →
      (∃ fields, v = .obj fields) ∧ st = ctx.stack) ∧
    (∀ fuel (ss : List (List Expr)) ctx v st, 2 ≤ ss.length →
      evalE (fuel + 1) (.block ss) ctx = .ok (v, st) →
      st = ctx.stack ∧ ∃ vs, v = .arr vs ∧ vs.length = ss.length ∧
        ∀ i (hi : i < ss.length) (hv : i < vs.length),
          ∃ f st', evalSection f (ss.get ⟨i, hi⟩) ctx = .ok (vs.get ⟨i, hv⟩, st')) := by
  refine ⟨blockCard_classification, evalBlock_single, ?_, evalBlock_multi⟩
  intro fuel s ctx v st hne hall h
  rw [evalBlock_single fuel s ctx hne] at h
  exact evalSection_struct fuel s ctx v st hne hall h

/-- Witness for C4 (amended) on the struct-shaped block
`{k: "v"}`. -/
theorem c4_amended_cardinality_and_shaping_witness :
    evalE 5 (.block [[.assignment "k" (some (.scalar (.str "v") (.stringT none)))]]) ctx0 =
      .ok (.obj [("k", .str "v")], []) ∧
    (∃ fields, Value.obj [("k", Value.str "v")] = .obj fields) := by
  refine ⟨rfl, ?_⟩
  exact (c4_amended_cardinality_and_shaping.2.2.1 4
    [.assignment "k" (some (.scalar (.str "v") (.stringT none)))] ctx0
    (.obj [("k", .str "v")]) [] (by simp)
    (by intro e he; rw [List.mem_singleton] at he; subst he; rfl) rfl).1

/-- The vector-cardinality branch of `mergeToFn`, as a value. -/
def vecMergeResult (lv rv : Value) (st2 : List Value) : Except EvalErr (Value × List Value) :=
  match lv with
  | .arr xs =>
    (match rv with
     | .arr ys => .ok (.arr (xs ++ ys), st2)
     | rv => .ok (.arr (xs ++ [rv]), st2))
  | _ => .error (.thrown "LHS of Merge expected to be an array")

/-- C5: evaluating a `Merge` whose left side has statically-inferred
Vector cardinality: both sides are evaluated first; if the left value is
not a sequence the evaluation fails with
"LHS of Merge expected to be an array"; otherwise the result is the
left elements followed by the right elements when the right value is a
sequence, or by the right value as a single trailing element when it is
not. -/
theorem c5_merge_vector_lhs (fuel : Nat) (l r : Expr) (m : MergeMode) (ctx : Ctx)
    (lv : Value) (st1 : List Value) (rv : Value) (st2 : List Value)
    (hc : card l = some .vector)
    (hl : evalE fuel l ctx = .ok (lv, st1))
    (hr : evalE fuel r { ctx with stack := st1 } = .ok (rv, st2)) :
    ((∀ xs, lv ≠ .arr xs) →
      evalE (fuel + 1) (.merge l r m) ctx =
        .error (.thrown "LHS of Merge expected to be an array")) ∧
    (∀ xs, lv = .arr xs →
      ((∀ ys, rv ≠ .arr ys) →
        evalE (fuel + 1) (.merge l r m) ctx = .ok (.arr (xs ++ [rv]), st2)) ∧
      (∀ ys, rv = .arr ys →
        evalE (fuel + 1) (.merge l r m) ctx = .ok (.arr (xs ++ ys), st2))) := by
  have hunf : evalE (fuel + 1) (.merge l r m) ctx = vecMergeResult lv rv st2 := by
    simp only [evalE, hl, excBindOk]
    rw [hr, excBindOk, hc]
    cases lv <;> cases rv <;> rfl
  constructor
  · intro hnl
    rw [hunf]
    cases lv with
    | arr xs => exact absurd rfl (hnl xs)
    | obj fs => rfl
    | str s => rfl
    | num n => rfl
    | bool b => rfl
    | unitV => rfl
    | undefV => rfl
    | nanV => rfl
  · intro xs hxs
    subst hxs
    constructor
    · intro hnr
      rw [hunf]
      cases rv with
      | arr ys => exact absurd rfl (hnr ys)
      | obj fs => rfl
      | str s => rfl
      | num n => rfl
      | bool b => rfl
      | unitV => rfl
      | undefV => rfl
      | nanV => rfl
    · intro ys hys
      subst hys
      rw [hunf]
      rfl

/-- Witness for C5 at `lhs = Lift(Unit)` (Vector cardinality, evaluates
to `[unit]`) merged with the scalar `"x"`. -/
theorem c5_merge_vector_lhs_witness :
    evalE 3 (.merge (.lift .unit) (.scalar (.str "x") (.stringT none)) .hard) ctx0 =
      .ok (.arr [.unitV, .str "x"], []) :=
  ((c5_merge_vector_lhs 2 (.lift .unit) (.scalar (.str "x") (.stringT none)) .hard ctx0
      (.arr [.unitV]) [] (.str "x") [] rfl rfl rfl).2 [.unitV] rfl).1
    (fun ys hy => Value.noConfusion hy)


/-! ## Indentation balance: the lexer loop invariant and the rule shapes -/

/-- The loop invariant of `getTokens`. -/
def LexInv (toks : List Token) (ind : List Int) : Prop :=
  ind ≠ [] ∧ ind.getLast? = some 0 ∧
  toks.countP isIndentTok = toks.countP isOutdentTok + (ind.length - 1) ∧
  ∀ k, (toks.drop k).countP isOutdentTok ≤ (toks.drop k).countP isIndentTok

theorem inv_push_nonIO {t : Token} {toks : List Token} {ind : List Int}
    (h1 : isIndentTok t = false) (h2 : isOutdentTok t = false)
    (h : LexInv toks ind) : LexInv (t :: toks) ind := by
  obtain ⟨hne, hlast, heq, hsuf⟩ := h
  refine ⟨hne, hlast, by simp [List.countP_cons, h1, h2, heq], ?_⟩
  intro k
  match k with
  | 0 =>
    have h0 := hsuf 0
    simp only [List.drop_zero] at h0 ⊢
    simp [List.countP_cons, h1, h2]
    omega
  | k + 1 => simpa using hsuf k

theorem inv_push_indent {toks : List Token} {ind : List Int} {v : Int} {s e : Nat}
    (h : LexInv toks ind) : LexInv (Token.indent s e :: toks) (v :: ind) := by
  obtain ⟨hne, hlast, heq, hsuf⟩ := h
  obtain ⟨a, l, rfl⟩ : ∃ a l, ind = a :: l := by
    cases ind with
    | nil => exact absurd rfl hne
    | cons a l => exact ⟨a, l, rfl⟩
  refine ⟨by simp, by rw [List.getLast?_cons_cons]; exact hlast, ?_, ?_⟩
  · simp [List.countP_cons, isIndentTok, isOutdentTok] at heq ⊢
    omega
  · intro k
    match k with
    | 0 =>
      have h0 := hsuf 0
      simp only [List.drop_zero] at h0 ⊢
      simp [List.countP_cons, isIndentTok, isOutdentTok]
      omega
    | k + 1 => simpa using hsuf k

theorem inv_pop_newline_head {n s e : Nat} {toks : List Token} {ind : List Int}
    (h : LexInv (Token.newline n s e :: toks) ind) : LexInv toks ind := by
  obtain ⟨hne, hlast, heq, hsuf⟩ := h
  refine ⟨hne, hlast, ?_, ?_⟩
  · simpa [List.countP_cons, isIndentTok, isOutdentTok] using heq
  · intro k
    simpa using hsuf (k + 1)

theorem inv_push_outdent {toks : List Token} {top : Int} {rest : List Int} {os oe : Nat}
    (h : LexInv toks (top :: rest)) (hrest : rest ≠ []) :
    LexInv (Token.outdent os oe :: toks) rest := by
  obtain ⟨hne, hlast, heq, hsuf⟩ := h
  obtain ⟨a, l, rfl⟩ : ∃ a l, rest = a :: l := by
    cases rest with
    | nil => exact absurd rfl hrest
    | cons a l => exact ⟨a, l, rfl⟩
  have hlast2 : (a :: l).getLast? = some 0 := by
    rw [← List.getLast?_cons_cons (a := top)]
    exact hlast
  refine ⟨by simp, hlast2, ?_, ?_⟩
  · simp [List.countP_cons, isIndentTok, isOutdentTok] at heq ⊢
    omega
  · intro k
    match k with
    | 0 =>
      have h0 := hsuf 0
      simp only [List.drop_zero] at h0 ⊢
      simp [List.countP_cons, isIndentTok, isOutdentTok] at heq ⊢
      omega
    | k + 1 => simpa using hsuf k

theorem inv_popIndents {v : Int} (hv : 0 ≤ v) :
    ∀ (ind : List Int) (toks : List Token) (os oe : Nat), LexInv toks ind →
      LexInv (popIndents ind toks v os oe).2 (popIndents ind toks v os oe).1 := by
  intro ind
  induction ind with
  | nil => intro toks os oe h; exact absurd rfl h.1
  | cons top rest ih =>
    intro toks os oe h
    simp only [popIndents]
    by_cases hc : v < top
    · rw [if_pos hc]
      have hrest : rest ≠ [] := by
        intro hr
        subst hr
        have htop : top = 0 := by simpa using h.2.1
        omega
      exact ih _ os oe (inv_push_outdent h hrest)
    · rw [if_neg hc]
      exact h

theorem inv_hyphenAdjust (c : Int) (s e : Nat) (toks : List Token) (ind : List Int)
    (h : LexInv toks ind) :
    LexInv (hyphenAdjust c toks ind s e).2 (hyphenAdjust c toks ind s e).1 := by
  unfold hyphenAdjust
  split
  · exact inv_push_indent (inv_pop_newline_head h)
  · exact h

theorem inv_newlineEmit (t : Token) (nind : Nat) (s e : Nat) (toks : List Token)
    (ind : List Int) (hio : isIndentTok t = false) (hoo : isOutdentTok t = false)
    (h : LexInv toks ind) :
    LexInv (newlineEmit t nind s e toks ind).1 (newlineEmit t nind s e toks ind).2 := by
  unfold newlineEmit
  split
  · exact h
  · next top rest =>
    by_cases he1 : 2 * (nind : Int) = top
    · rw [if_pos he1]
      exact inv_push_nonIO hio hoo h
    · rw [if_neg he1]
      by_cases he2 : top < 2 * (nind : Int)
      · rw [if_pos he2]
        exact inv_push_indent h
      · rw [if_neg he2]
        exact h

theorem processTok_inv (t : Token) (toks : List Token) (ind : List Int)
    (toks2 : List Token) (ind2 : List Int)
    (hi : isIndentTok t = false) (ho : isOutdentTok t = false)
    (hp : processTok t toks ind = .ok (toks2, ind2)) (hinv : LexInv toks ind) :
    LexInv toks2 ind2 := by
  cases t
  case comment s e =>
    obtain ⟨h1, h2⟩ := Prod.mk.injEq _ _ _ _ ▸ Except.ok.inj hp
    exact h1 ▸ h2 ▸ hinv
  case hyphen hind col s e =>
    obtain ⟨top, rest, rfl⟩ : ∃ a l, ind = a :: l := by
      cases ind with
      | nil => exact absurd rfl hinv.1
      | cons a l => exact ⟨a, l, rfl⟩
    simp only [processTok] at hp
    by_cases hc : 2 * (col : Int) = top ∨ 2 * (col : Int) = top + 1
    · rw [if_pos hc] at hp
      obtain ⟨h1, h2⟩ := Prod.mk.injEq _ _ _ _ ▸ Except.ok.inj hp
      exact h1 ▸ h2 ▸ inv_push_indent (inv_hyphenAdjust _ s e toks _ hinv)
    · rw [if_neg hc] at hp
      exact absurd hp (by simp)
  case newline nind s e =>
    simp only [processTok] at hp
    have hpop := inv_popIndents (v := 2 * (nind : Int)) (by omega) ind toks (s + 1) e hinv
    by_cases hd : newlineDedup nind (popIndents ind toks (2 * (nind : Int)) (s + 1) e).2
    · rw [if_pos hd] at hp
      obtain ⟨h1, h2⟩ := Prod.mk.injEq _ _ _ _ ▸ Except.ok.inj hp
      exact h1 ▸ h2 ▸ hpop
    · rw [if_neg hd] at hp
      obtain ⟨h1, h2⟩ := Prod.mk.injEq _ _ _ _ ▸ Except.ok.inj hp
      exact h1 ▸ h2 ▸ inv_newlineEmit _ nind s e _ _ rfl rfl hpop
  case indent a b => exact absurd hi (by simp [isIndentTok])
  case outdent a b => exact absurd ho (by simp [isOutdentTok])
  all_goals {
    obtain ⟨h1, h2⟩ := Prod.mk.injEq _ _ _ _ ▸ Except.ok.inj hp
    exact h1 ▸ h2 ▸ inv_push_nonIO rfl rfl hinv }



theorem newlineRule_shape {src : List Char} {i : Nat} {t : Token}
    (h : newlineRule src i = some (some t)) :
    isIndentTok t = false ∧ isOutdentTok t = false := by
  unfold newlineRule at h
  split at h <;> simp_all [isIndentTok, isOutdentTok]
  subst h
  exact ⟨rfl, rfl⟩

theorem commentRule_shape {src : List Char} {i : Nat} {t : Token}
    (h : commentRule src i = some (some t)) :
    isIndentTok t = false ∧ isOutdentTok t = false := by
  unfold commentRule at h
  split at h <;> simp_all [isIndentTok, isOutdentTok]
  subst h
  exact ⟨rfl, rfl⟩

theorem atomRule_shape {m : List Char} {mk : Nat → Nat → Token} {src : List Char}
    {i : Nat} {t : Token}
    (hmk : ∀ a b, isIndentTok (mk a b) = false ∧ isOutdentTok (mk a b) = false)
    (h : atomRule m mk src i = some (some t)) :
    isIndentTok t = false ∧ isOutdentTok t = false := by
  unfold atomRule at h
  split at h <;> simp_all [isIndentTok, isOutdentTok]
  subst h
  exact hmk _ _

theorem hyphenRule_shape {src : List Char} {i : Nat} {t : Token}
    (h : hyphenRule src i = some (some t)) :
    isIndentTok t = false ∧ isOutdentTok t = false := by
  unfold hyphenRule at h
  split at h <;> (try split at h) <;> (try split at h) <;>
    simp_all [isIndentTok, isOutdentTok]
  subst h
  exact ⟨rfl, rfl⟩

theorem assignmentsRule_shape {src : List Char} {i : Nat} {t : Token}
    (h : assignmentsRule src i = some (some t)) :
    isIndentTok t = false ∧ isOutdentTok t = false := by
  unfold assignmentsRule at h
  split at h <;> (try split at h) <;> (try split at h) <;> (try split at h) <;>
    (try split at h) <;> simp_all [isIndentTok, isOutdentTok] <;>
    (subst h; exact ⟨rfl, rfl⟩)

theorem classifyLiteral_shape (s : String) (a b : Nat) :
    isIndentTok (classifyLiteral s a b) = false ∧
    isOutdentTok (classifyLiteral s a b) = false := by
  unfold classifyLiteral
  split <;> (try split) <;> (try split) <;> simp [isIndentTok, isOutdentTok]

theorem literalAssignmentRule_shape {src : List Char} {i : Nat} {tkns : List Token}
    {t : Token} (h : literalAssignmentRule src i tkns = some (some t)) :
    isIndentTok t = false ∧ isOutdentTok t = false := by
  unfold literalAssignmentRule at h
  split at h <;> (try split at h) <;> (try split at h) <;> (try split at h) <;>
    (try split at h) <;> simp_all [isIndentTok, isOutdentTok] <;>
    first
      | (subst h; exact ⟨rfl, rfl⟩)
      | (subst h; exact classifyLiteral_shape _ _ _)

theorem symbolRule_shape {src : List Char} {i : Nat} {t : Token}
    (h : symbolRule src i = some (some t)) :
    isIndentTok t = false ∧ isOutdentTok t = false := by
  simp only [symbolRule] at h
  split at h <;> simp_all [isIndentTok, isOutdentTok]
  subst h
  exact ⟨rfl, rfl⟩

theorem foldl_pick_mem : ∀ (l : List Token) (a : Token),
    l.foldl (fun best t2 => if best.endPos < t2.endPos then t2 else best) a ∈ a :: l := by
  intro l
  induction l with
  | nil => intro a; simp
  | cons b m ih =>
    intro a
    simp only [List.foldl_cons]
    by_cases hab : a.endPos < b.endPos
    · rw [if_pos hab]
      have := ih b
      simp only [List.mem_cons] at this ⊢
      tauto
    · rw [if_neg hab]
      have := ih a
      simp only [List.mem_cons] at this ⊢
      tauto

theorem pickBest_mem {cands : List Token} {t : Token} (h : pickBest cands = some t) :
    t ∈ cands := by
  cases cands with
  | nil => exact absurd h (by simp [pickBest])
  | cons a l =>
    have := foldl_pick_mem l a
    rw [show l.foldl (fun best t2 => if best.endPos < t2.endPos then t2 else best) a = t
      from Option.some.inj h] at this
    exact this

theorem getToken_shape {src : List Char} {i : Nat} {tkns : List Token} {t : Token}
    (h : getToken src i tkns = some (some t)) :
    isIndentTok t = false ∧ isOutdentTok t = false := by
  simp only [getToken] at h
  split at h
  · exact absurd h (by simp)
  · have hp : pickBest _ = some t := Option.some.inj h
    have hmem := pickBest_mem hp
    rw [List.mem_filterMap] at hmem
    obtain ⟨r, hr, hrt⟩ := hmem
    have hrr : r = some (some t) := by
      match r with
      | none => exact absurd hrt (by simp)
      | some none => exact absurd hrt (by simp)
      | some (some u) => simp at hrt; rw [hrt]
    subst hrr
    simp only [List.mem_cons, List.not_mem_nil, or_false] at hr
    rcases hr with h1|h1|h1|h1|h1|h1|h1|h1|h1|h1|h1|h1|h1|h1|h1|h1|h1|h1
    · exact newlineRule_shape h1.symm
    · exact commentRule_shape h1.symm
    · refine atomRule_shape ?_ h1.symm
      exact fun a b => ⟨rfl, rfl⟩
    · exact hyphenRule_shape h1.symm
    · refine atomRule_shape ?_ h1.symm
      exact fun a b => ⟨rfl, rfl⟩
    · refine atomRule_shape ?_ h1.symm
      exact fun a b => ⟨rfl, rfl⟩
    · refine atomRule_shape ?_ h1.symm
      exact fun a b => ⟨rfl, rfl⟩
    · refine atomRule_shape ?_ h1.symm
      exact fun a b => ⟨rfl, rfl⟩
    · refine atomRule_shape ?_ h1.symm
      exact fun a b => ⟨rfl, rfl⟩
    · refine atomRule_shape ?_ h1.symm
      exact fun a b => ⟨rfl, rfl⟩
    · refine atomRule_shape ?_ h1.symm
      exact fun a b => ⟨rfl, rfl⟩
    · refine atomRule_shape ?_ h1.symm
      exact fun a b => ⟨rfl, rfl⟩
    · refine atomRule_shape ?_ h1.symm
      exact fun a b => ⟨rfl, rfl⟩
    · refine atomRule_shape ?_ h1.symm
      exact fun a b => ⟨rfl, rfl⟩
    · exact assignmentsRule_shape h1.symm
    · refine atomRule_shape ?_ h1.symm
      exact fun a b => ⟨rfl, rfl⟩
    · exact literalAssignmentRule_shape h1.symm
    · exact symbolRule_shape h1.symm



theorem finishTokens_drop (toks : List Token) (ind : List Int) (len : Nat)
    (h : LexInv toks ind) (k : Nat) :
    ((Token.eof len len ::
        (List.replicate (ind.length - 1) (Token.outdent len len) ++ toks)).drop k).countP
        isOutdentTok
      ≤ ((Token.eof len len ::
        (List.replicate (ind.length - 1) (Token.outdent len len) ++ toks)).drop k).countP
        isIndentTok := by
  obtain ⟨hne, hlast, heq, hsuf⟩ := h
  match k with
  | 0 =>
    have h0 := hsuf 0
    simp only [List.drop_zero] at h0
    simp [List.countP_cons, List.countP_append, List.countP_replicate,
      isIndentTok, isOutdentTok]
    omega
  | k + 1 =>
    simp only [List.drop_succ_cons, List.drop_append_eq_append_drop,
      List.drop_replicate, List.length_replicate]
    simp [List.countP_append, List.countP_replicate, isIndentTok, isOutdentTok]
    have := hsuf (k - (ind.length - 1))
    by_cases hk : k ≤ ind.length - 1
    · have hz : k - (ind.length - 1) = 0 := by omega
      rw [hz] at this ⊢
      simp only [List.drop_zero] at this ⊢
      omega
    · omega

theorem finishTokens_spec (toks : List Token) (ind : List Int) (len : Nat)
    (h : LexInv toks ind) :
    (finishTokens toks ind len).countP isIndentTok
        = (finishTokens toks ind len).countP isOutdentTok ∧
      ∀ n, ((finishTokens toks ind len).take n).countP isOutdentTok
        ≤ ((finishTokens toks ind len).take n).countP isIndentTok := by
  obtain ⟨hne, hlast, heq, hsuf⟩ := h
  constructor
  · unfold finishTokens
    rw [List.countP_reverse, List.countP_reverse]
    simp only [List.countP_cons, List.countP_append, List.countP_replicate,
      isIndentTok, isOutdentTok]
    simp
    omega
  · intro n
    unfold finishTokens
    rw [List.take_reverse, List.countP_reverse, List.countP_reverse]
    exact finishTokens_drop toks ind len ⟨hne, hlast, heq, hsuf⟩ _

theorem lexLoop_tokens (src : List Char) :
    ∀ (fuel i : Nat) (toks : List Token) (ind : List Int) (ts : List Token),
      LexInv toks ind →
      lexLoop src fuel i toks ind = .tokens ts →
      ts.countP isIndentTok = ts.countP isOutdentTok ∧
        ∀ n, (ts.take n).countP isOutdentTok ≤ (ts.take n).countP isIndentTok := by
  intro fuel
  induction fuel with
  | zero =>
    intro i toks ind ts _ h
    exact absurd h (by simp [lexLoop])
  | succ fuel ih =>
    intro i toks ind ts hinv h
    simp only [lexLoop] at h
    split at h
    · split at h
      · exact absurd h (by simp)
      · split at h
        · exact absurd h (by simp)
        · refine ih _ _ _ _ ?_ h
          exact inv_push_nonIO rfl rfl hinv
      · rename_i t hgt
        split at h
        · exact absurd h (by simp)
        · rename_i toks2 ind2 hpt
          have hshape := getToken_shape hgt
          have hinv2 := processTok_inv t toks ind toks2 ind2 hshape.1 hshape.2
            hpt hinv
          split at h
          · exact ih _ _ _ _ hinv2 h
          · exact ih _ _ _ _ hinv2 h
    · have hts : ts = finishTokens toks ind src.length := (LexResult.tokens.inj h).symm
      subst hts
      exact finishTokens_spec toks ind src.length hinv

/-- C3: for every source text whose tokenization completes (in particular,
for the claim's monotone-then-return-to-zero sources), the token list holds
exactly as many Indent as Outdent tokens, and no prefix of it holds more
Outdents than Indents, so no Outdent ever pops below the base level 0. -/
theorem c3_indent_outdent_balanced (fuel : Nat) (input : String) (ts : List Token)
    (h : getTokens fuel input = .tokens ts) :
    ts.countP isIndentTok = ts.countP isOutdentTok ∧
      ∀ n, (ts.take n).countP isOutdentTok ≤ (ts.take n).countP isIndentTok := by
  simp only [getTokens] at h
  split at h
  · have hts : ts = [Token.eof input.length input.length] := (LexResult.tokens.inj h).symm
    subst hts
    refine ⟨rfl, ?_⟩
    intro n
    cases n <;> simp [List.countP_cons, isIndentTok, isOutdentTok]
  · exact lexLoop_tokens _ fuel _ [] [0] ts ⟨by simp, rfl, by simp, by simp⟩ h

theorem c3_indent_outdent_balanced_witness :
    getTokens 32 "a\n  b\n" = LexResult.tokens
        [Token.symbol "a" 0 1, Token.indent 1 4, Token.symbol "b" 4 5,
          Token.outdent 6 6, Token.eof 6 6] ∧
      ([Token.symbol "a" 0 1, Token.indent 1 4, Token.symbol "b" 4 5,
          Token.outdent 6 6, Token.eof 6 6].countP isIndentTok
        = [Token.symbol "a" 0 1, Token.indent 1 4, Token.symbol "b" 4 5,
          Token.outdent 6 6, Token.eof 6 6].countP isOutdentTok ∧
        ∀ n, (([Token.symbol "a" 0 1, Token.indent 1 4, Token.symbol "b" 4 5,
          Token.outdent 6 6, Token.eof 6 6]).take n).countP isOutdentTok
          ≤ (([Token.symbol "a" 0 1, Token.indent 1 4, Token.symbol "b" 4 5,
          Token.outdent 6 6, Token.eof 6 6]).take n).countP isIndentTok) :=
  ⟨rfl, c3_indent_outdent_balanced 32 "a\n  b\n" _ rfl⟩

end Ykl
